import Mathlib

/-!
Verification of the path-resolution and filtering pipeline of `ctxcat`
(`internal/processor/processor.go`, driven by `internal/cmd/root.go`).

Modelling conventions (shallow embedding):

* A filesystem path is a list of components (`FPath : Type := List String`); the
  working directory is an absolute path `World.cwd` measured from the
  filesystem root.  Candidate paths handed to the processor are relative to
  the working directory, already cleaned (no empty, `.` or `..` components,
  no separator inside a component), exactly the shape `filepath.Join` /
  `doublestar.FilepathGlob` produce during a walk.  `filepath.Dir` on an
  absolute path is `List.dropLast`, `filepath.Join` is `++`, and
  `filepath.Rel base target` for `base` an ancestor of `target` is
  `List.drop base.length target`.
* The filesystem is a finite tree of entries.  A directory or file carries a
  `readable` flag modelling permissions: an unreadable directory can neither
  be listed (`os.ReadDir` fails) nor traversed, an unreadable file makes
  `os.Open` fail.
* File contents are byte lists (`List Nat`).
* Third-party libraries are oracles carried by the `World`:
  `pathMatch` is `doublestar.PathMatch` (an invalid pattern, whose `err` the
  code treats as a non-match, is folded into a `false` result),
  `matchLines` is `go-gitignore`'s `CompileIgnoreLines(...).MatchesPath`,
  `decodeLines` is the line decoding shared by `bufio.Scanner` and
  `CompileIgnoreFile`, and `glob` is `doublestar.FilepathGlob`
  (`none` models the invalid-pattern error branch).
* Every I/O action the processor performs is recorded in a trace of
  `Event`s.  The trace over-approximates the real process: the
  `ignoreMatcherCache` of `FileProcessor` (processor.go lines 143-162) only
  memoises `CompileIgnoreFile` results and can never change them, so the
  cache-free model computes the same answers and emits a superset of the
  real probe events; all trace theorems below only assert the *absence* of
  events, which the over-approximation makes conservative.
* Go's `filepath.WalkDir` visits directory entries in lexical order; the
  model walks the `children` list in list order, so a world models a real
  directory by listing children in that order.
-/

/-- A filesystem path, as a list of components. -/
abbrev FPath : Type := List String

/-- One node of the modelled filesystem.  `readable` models permission to
open (files) or list and traverse (directories). -/
inductive Entry : Type where
  | file (readable : Bool) (content : List Nat)
  | dir (readable : Bool) (children : List (String × Entry))
deriving Inhabited

/-- `Config` of processor.go lines 18-25; field for field.  The five flags
are wired from the CLI in root.go lines 54-60.  `ignoreFiles` entries are
working-directory-relative paths. -/
structure Config : Type where
  noRecursive : Bool
  noGitignore : Bool
  ignoreFiles : List FPath
  excludeGlobs : List String
  noBinaryCheck : Bool

/-- The ambient world: the filesystem, the working directory, and the
behaviour of the external libraries (see the module comment). -/
structure World : Type where
  cwd : FPath
  root : Entry
  pathMatch : String → String → Bool
  matchLines : List String → String → Bool
  decodeLines : List Nat → List String
  glob : String → Option (List FPath)

/-- I/O actions and diagnostics of one run.  All paths recorded in events
are absolute (measured from the filesystem root). -/
inductive Event : Type where
  | openIgnore (p : FPath)
  | openBin (p : FPath)
  | readDirOk (p : FPath)
  | readDirErr (p : FPath)
  | warnWalk (root : FPath) (p : FPath)
  | warnGlob (pattern : String)
  | warnIgnoreFile (f : FPath)
deriving DecidableEq

/-- Whether an event is a diagnostic written to the warning stream. -/
def Event.isWarn : Event → Bool
  | .warnWalk _ _ => true
  | .warnGlob _ => true
  | .warnIgnoreFile _ => true
  | _ => false

/-- Resolve a path against the tree: `none` models a failing `os.Stat` /
`os.Open` (entry missing, a file used as a directory, or an unreadable
directory on the way).  The readability of the final entry itself is not
consulted (`os.Stat` needs no read permission on the target). -/
def lookup : Entry → FPath → Option Entry
  | e, [] => some e
  | Entry.file _ _, _ :: _ => none
  | Entry.dir readable children, n :: rest =>
      if readable then
        match children.find? (fun c => c.1 == n) with
        | some c => lookup c.2 rest
        | none => none
      else none

/-- `filepath.ToSlash` of a joined path; `[]` prints as `.`, the clean form
of the empty relative path. -/
def toSlash (p : FPath) : String :=
  match p with
  | [] => "."
  | _ => String.intercalate "/" p

/-- `d.isUnder p`: `d` is a prefix of `p`, i.e. `p` lies at or below the
directory `d`. -/
def isUnder (d p : FPath) : Bool := d.isPrefixOf p

/-- `filepath.Rel currentDir absPath` (processor.go line 183) for
`currentDir` an ancestor of `absPath`, followed by `filepath.ToSlash`
(line 187): the components of `absPath` past `currentDir`. -/
def relSlash (dir target : FPath) : String := toSlash (target.drop dir.length)

/-- `filepath.Rel(".", path)` (processor.go lines 212-215) on a cleaned
working-directory-relative path is the path itself; the `err` fallback
(`relPath = path`) is only reachable for absolute arguments, which never
arise here, and also yields the path as given. -/
def relDot (path : FPath) : FPath := path

/-- The name of the per-directory ignore file (processor.go line 153). -/
def gitignoreName : String := ".gitignore"

/-- `os.Open` + `bufio.Scanner` of one custom ignore file (processor.go
lines 51-61): the decoded lines, or `none` when the file cannot be
opened. -/
def ignoreFileLines (w : World) (f : FPath) : Option (List String) :=
  match lookup w.root (w.cwd ++ f) with
  | some (Entry.file true content) => some (w.decodeLines content)
  | _ => none

/-- `allPatterns` of `New` (processor.go lines 50-62): every line of every
readable custom ignore file, in order; unreadable files contribute
nothing. -/
def allPatterns (w : World) (cfg : Config) : List String :=
  cfg.ignoreFiles.flatMap (fun f => (ignoreFileLines w f).getD [])

/-- The warnings `New` prints for unreadable custom ignore files
(processor.go line 54). -/
def newWarns (w : World) (cfg : Config) : List Event :=
  cfg.ignoreFiles.flatMap (fun f =>
    match ignoreFileLines w f with
    | none => [Event.warnIgnoreFile (w.cwd ++ f)]
    | some _ => [])

/-- `customIgnoreMatcher` built by `New` (processor.go lines 49-66): the
matcher exists iff at least one line was collected (`len(allPatterns) > 0`;
when `IgnoreFiles` is empty no line is collected either). -/
def customIgnoreMatcher (w : World) (cfg : Config) : Option (String → Bool) :=
  if allPatterns w cfg = [] then none
  else some (w.matchLines (allPatterns w cfg))

/-- `isExcluded` (processor.go lines 244-252): first `--exclude` pattern
that `doublestar.PathMatch` accepts; a pattern error counts as no match
(folded into the oracle). -/
def isExcluded (w : World) (cfg : Config) (path : FPath) : Bool :=
  cfg.excludeGlobs.any (fun pattern => w.pathMatch pattern (toSlash path))

/-- Stage 2 of the filter (processor.go lines 210-219): the global custom
ignore matcher applied to the walk path made relative to `"."`. -/
def customIgnoreHit (w : World) (cfg : Config) (path : FPath) : Bool :=
  match customIgnoreMatcher w cfg with
  | some m => m (toSlash (relDot path))
  | none => false

/-- `getGitignoreMatcher` (processor.go lines 145-162) without the cache
(see the module comment): compile `dir/.gitignore`; any open or read error
yields no matcher.  `dir` is absolute. -/
def getGitignoreMatcher (w : World) (dir : FPath) : Option (String → Bool) :=
  match lookup w.root (dir ++ [gitignoreName]) with
  | some (Entry.file true content) => some (w.matchLines (w.decodeLines content))
  | _ => none

/-- One step of the ascent loop of `isGitignored` (processor.go lines
182-190): attempt to compile `currentDir/.gitignore` (the `openIgnore`
event records the attempt) and test `absPath` relative to `currentDir`
against it.  The `filepath.Rel` error branch (line 184) is unreachable here
because `currentDir` is always an ancestor of `absPath`. -/
def gitignoreProbe (w : World) (absPath currentDir : FPath) : Bool × Event :=
  (match getGitignoreMatcher w currentDir with
   | some m => m (relSlash currentDir absPath)
   | none => false,
   Event.openIgnore (currentDir ++ [gitignoreName]))

/-- The ascent loop of `isGitignored` (processor.go lines 181-197), run on
the *reversed* current directory so that `filepath.Dir` (= `dropLast`)
becomes structural recursion: probe the directory, stop on a match, and
otherwise move to the parent until the filesystem root (where
`filepath.Dir` is a fixed point, i.e. the reversed path is `[]`) has been
probed. -/
def gitignoreAscendAux (w : World) (absPath : FPath) : FPath → Bool × List Event
  | [] =>
      let p := gitignoreProbe w absPath []
      (p.1, [p.2])
  | a :: l =>
      let p := gitignoreProbe w absPath ((a :: l).reverse)
      if p.1 then (true, [p.2])
      else
        let r := gitignoreAscendAux w absPath l
        (r.1, p.2 :: r.2)

/-- The ascent loop of `isGitignored` starting at `currentDir`. -/
def gitignoreAscend (w : World) (absPath : FPath) (currentDir : FPath) :
    Bool × List Event :=
  gitignoreAscendAux w absPath currentDir.reverse

/-- `isGitignored` (processor.go lines 165-200): nothing when gitignore
support is off; otherwise start at the path's own directory for a file, at
the path itself for a directory (or when `os.Stat` fails), and ascend. -/
def isGitignoredT (w : World) (cfg : Config) (path : FPath) : Bool × List Event :=
  if cfg.noGitignore then (false, [])
  else
    let absPath := w.cwd ++ path
    let currentDir :=
      match lookup w.root absPath with
      | some (Entry.file _ _) => absPath.dropLast
      | _ => absPath
    gitignoreAscend w absPath currentDir

/-- `shouldSkipDir` (processor.go lines 204-227): precedence 1 the
`--exclude` globs, precedence 2 the custom ignore matcher, precedence 3 the
`.gitignore` hierarchy; the first stage that matches decides. -/
def shouldSkipDirT (w : World) (cfg : Config) (path : FPath) : Bool × List Event :=
  if isExcluded w cfg path then (true, [])
  else if customIgnoreHit w cfg path then (true, [])
  else isGitignoredT w cfg path

/-- `isBinary` (processor.go lines 255-269): open the file (an `os.Open`
attempt is always recorded), read at most the first 1024 bytes, and report
whether a zero byte occurs; any open failure reports `false`. -/
def isBinaryT (w : World) (path : FPath) : Bool × List Event :=
  (match lookup w.root (w.cwd ++ path) with
   | some (Entry.file true content) => (content.take 1024).contains 0
   | _ => false,
   [Event.openBin (w.cwd ++ path)])

/-- `shouldInclude` (processor.go lines 230-241): the three `shouldSkipDir`
stages, then (precedence 4, only when reached and enabled) the binary
check. -/
def shouldIncludeT (w : World) (cfg : Config) (path : FPath) : Bool × List Event :=
  let s := shouldSkipDirT w cfg path
  if s.1 then (false, s.2)
  else if cfg.noBinaryCheck then (true, s.2)
  else
    let b := isBinaryT w path
    (!b.1, s.2 ++ b.2)

/-- Value of `shouldSkipDir`. -/
def shouldSkipDir (w : World) (cfg : Config) (path : FPath) : Bool :=
  (shouldSkipDirT w cfg path).1

/-- Value of `shouldInclude`. -/
def shouldInclude (w : World) (cfg : Config) (path : FPath) : Bool :=
  (shouldIncludeT w cfg path).1

/-- Value of `isGitignored`. -/
def isGitignored (w : World) (cfg : Config) (path : FPath) : Bool :=
  (isGitignoredT w cfg path).1

/-- Value of `isBinary`. -/
def isBinary (w : World) (path : FPath) : Bool :=
  (isBinaryT w path).1

mutual

/-- `filepath.WalkDir` (processor.go line 110) specialised to the callback
of lines 110-129.  For a file: the callback applies `shouldInclude`.  For a
directory: the callback returns `SkipDir` when the directory is not the
walk root and `shouldSkipDir` holds (the `&&` short-circuits, so the root
is never tested); `SkipDir` on a directory is absorbed by `WalkDir`.
Otherwise `WalkDir` lists the directory; a listing failure re-invokes the
callback with the error, which line 112 returns, aborting the whole walk
with that error (modelled as `some failedPath`).  Results are the included
files, the event trace, and the propagated error. -/
def walkEntryT (w : World) (cfg : Config) (root : FPath) (path : FPath)
    (e : Entry) : List FPath × List Event × Option FPath :=
  match e with
  | Entry.file _ _ =>
      let r := shouldIncludeT w cfg path
      ((if r.1 then [path] else []), r.2, none)
  | Entry.dir readable children =>
      let s := if path ≠ root then shouldSkipDirT w cfg path else (false, [])
      if s.1 then ([], s.2, none)
      else if readable then
        let rest := walkChildrenT w cfg root path children
        (rest.1, s.2 ++ [Event.readDirOk (w.cwd ++ path)] ++ rest.2.1, rest.2.2)
      else ([], s.2 ++ [Event.readDirErr (w.cwd ++ path)], some path)

/-- The loop of `WalkDir` over the listed entries, in order; a propagated
error stops the remaining siblings (files already collected are kept,
mirroring the side-effecting `finalFiles` map). -/
def walkChildrenT (w : World) (cfg : Config) (root : FPath) (parent : FPath)
    (children : List (String × Entry)) : List FPath × List Event × Option FPath :=
  match children with
  | [] => ([], [], none)
  | c :: rest =>
      let r := walkEntryT w cfg root (parent ++ [c.1]) c.2
      match r.2.2 with
      | some err => (r.1, r.2.1, some err)
      | none =>
          let rr := walkChildrenT w cfg root parent rest
          (r.1 ++ rr.1, r.2.1 ++ rr.2.1, rr.2.2)

end

/-- The body of the candidate loop of `ProcessPaths` (processor.go lines
88-134) for one expanded candidate: a failing `os.Stat` skips it (line 91);
a file goes through `shouldInclude` (lines 94-101); a directory is walked
— the unused `isRecursivePattern` binding and the *empty* `NoRecursive`
conditional of lines 103-108 are kept as in the source, so the walk always
recurses — and a walk error only produces the warning of line 132. -/
def candContribT (w : World) (cfg : Config) (cand : FPath) :
    List FPath × List Event :=
  match lookup w.root (w.cwd ++ cand) with
  | none => ([], [])
  | some (Entry.file r c) =>
      let i := shouldIncludeT w cfg cand
      ((if i.1 then [cand] else []), i.2)
  | some (Entry.dir r ch) =>
      let isRecursivePattern : Bool := decide (((toSlash cand).splitOn "**").length > 1)
      -- lines 104-108: `if p.config.NoRecursive && !isRecursivePattern {}`
      -- has an empty body in the source; nothing is done with it.
      let walk := walkEntryT w cfg cand cand (Entry.dir r ch)
      (walk.1,
       walk.2.1 ++
         match walk.2.2 with
         | some errPath => [Event.warnWalk (w.cwd ++ cand) (w.cwd ++ errPath)]
         | none => [])

/-- Glob expansion of `ProcessPaths` (processor.go lines 73-83): expand
every input, drop patterns whose expansion errors, and deduplicate the
matches (the `expandedPaths` map). -/
def expandedPaths (w : World) (patterns : List String) : List FPath :=
  (patterns.flatMap (fun s => (w.glob s).getD [])).dedup

/-- The warnings of lines 76-78 for invalid glob patterns. -/
def globWarns (w : World) (patterns : List String) : List Event :=
  patterns.flatMap (fun s =>
    match w.glob s with
    | none => [Event.warnGlob s]
    | some _ => [])

/-- `ProcessPaths` (processor.go lines 72-141): expand, filter every
candidate, collect the included files as a set (the `finalFiles` map,
modelled by deduplication), and emit all diagnostics.  The function itself
never fails (its Go `error` result is always `nil`). -/
def processPathsT (w : World) (cfg : Config) (patterns : List String) :
    List FPath × List Event :=
  ((expandedPaths w patterns).flatMap (fun c => (candContribT w cfg c).1) |>.dedup,
   globWarns w patterns ++
     (expandedPaths w patterns).flatMap (fun c => (candContribT w cfg c).2))

/-- Ordering used by `sort.Strings` (root.go line 72): code-point
lexicographic comparison, which on UTF-8 agrees with Go's byte-wise string
order. -/
def strLexLe : List Char → List Char → Bool
  | [], _ => true
  | _ :: _, [] => false
  | a :: as, b :: bs =>
      if a.toNat < b.toNat then true
      else if b.toNat < a.toNat then false
      else strLexLe as bs

/-- Paths ordered by their slash-joined string form. -/
def pathLe (a b : FPath) : Bool := strLexLe (toSlash a).data (toSlash b).data

/-- The resolver as the CLI uses it (root.go lines 66-72): `ProcessPaths`
followed by `sort.Strings` for deterministic output. -/
def resolve (w : World) (cfg : Config) (patterns : List String) : List FPath :=
  List.insertionSort (fun a b => pathLe a b = true)
    (processPathsT w cfg patterns).1

/-- All diagnostics of one run: those of `New` followed by those of
`ProcessPaths`. -/
def runTrace (w : World) (cfg : Config) (patterns : List String) : List Event :=
  newWarns w cfg ++ (processPathsT w cfg patterns).2

/-- Helper for `ancestorDirs`, structural on the reversed directory. -/
def ancestorDirsAux : FPath → List FPath
  | [] => [[]]
  | a :: l => (a :: l).reverse :: ancestorDirsAux l

/-- The ancestor chain the gitignore ascent visits: the directory itself,
then its parents, down to the filesystem root `[]`. -/
def ancestorDirs (d : FPath) : List FPath :=
  ancestorDirsAux d.reverse

/-- Whether the `.gitignore` ruleset of the directory `d` matches `target`
expressed relative to `d`. -/
def gitignoreMatchAt (w : World) (d target : FPath) : Bool :=
  match getGitignoreMatcher w d with
  | some m => m (relSlash d target)
  | none => false

/-- The directory at which the gitignore ascent starts (processor.go lines
175-179): the containing directory for an existing file, the path itself
otherwise. -/
def startDir (w : World) (path : FPath) : FPath :=
  let absPath := w.cwd ++ path
  match lookup w.root absPath with
  | some (Entry.file _ _) => absPath.dropLast
  | _ => absPath

/-- Events that read the contents of the directory `dabs` (absolute):
listing it, or opening something strictly inside it — except the probe of
`dabs`'s own `.gitignore`, which the filter performs while deciding `dabs`
itself. -/
def eventReadsInside (dabs : FPath) : Event → Bool
  | Event.readDirOk p => isUnder dabs p
  | Event.readDirErr p => isUnder dabs p
  | Event.openBin p => isUnder dabs p
  | Event.openIgnore p =>
      isUnder dabs p && p ≠ dabs && p ≠ dabs ++ [gitignoreName]
  | _ => false

/-! Basic facts about `isUnder`. -/

theorem isUnder_iff {d p : FPath} : isUnder d p = true ↔ d <+: p := by
  simp [isUnder, List.isPrefixOf_iff_prefix]

theorem isUnder_self (d : FPath) : isUnder d d = true :=
  isUnder_iff.mpr List.prefix_rfl

theorem isUnder_append_left (a b c : FPath) :
    isUnder (a ++ b) (a ++ c) = isUnder b c := by
  induction a with
  | nil => rfl
  | cons x xs ih => simpa [isUnder, List.isPrefixOf] using ih

theorem isUnder_snoc {d q : FPath} {x : String}
    (h : isUnder d (q ++ [x]) = true) : isUnder d q = true ∨ d = q ++ [x] := by
  rcases List.prefix_concat_iff.mp (isUnder_iff.mp h) with h1 | h2
  · exact Or.inr h1
  · exact Or.inl (isUnder_iff.mpr h2)

theorem isUnder_trans {a b c : FPath} (h1 : isUnder a b = true)
    (h2 : isUnder b c = true) : isUnder a c = true :=
  isUnder_iff.mpr ((isUnder_iff.mp h1).trans (isUnder_iff.mp h2))

theorem isUnder_antisymm {a b : FPath} (h1 : isUnder a b = true)
    (h2 : isUnder b a = true) : a = b := by
  have p1 := isUnder_iff.mp h1
  have p2 := isUnder_iff.mp h2
  exact p1.eq_of_length (Nat.le_antisymm p1.length_le p2.length_le)

/-! The comparison used by the final sort is a total preorder. -/

theorem strLexLe_total (a b : List Char) :
    strLexLe a b = true ∨ strLexLe b a = true := by
  induction a generalizing b with
  | nil => exact Or.inl rfl
  | cons x xs ih =>
      cases b with
      | nil => exact Or.inr rfl
      | cons y ys =>
          by_cases h1 : x.toNat < y.toNat
          · exact Or.inl (by simp [strLexLe, h1])
          · by_cases h2 : y.toNat < x.toNat
            · exact Or.inr (by simp [strLexLe, h2])
            · rcases ih ys with h | h
              · exact Or.inl (by simp [strLexLe, h1, h2, h])
              · exact Or.inr (by simp [strLexLe, h1, h2, h])

theorem strLexLe_trans {a b c : List Char} (h1 : strLexLe a b = true)
    (h2 : strLexLe b c = true) : strLexLe a c = true := by
  induction a generalizing b c with
  | nil => rfl
  | cons x xs ih =>
      cases b with
      | nil => simp [strLexLe] at h1
      | cons y ys =>
          cases c with
          | nil => simp [strLexLe] at h2
          | cons z zs =>
              simp only [strLexLe] at h1 h2 ⊢
              by_cases hxy : x.toNat < y.toNat
              · by_cases hyz : y.toNat < z.toNat
                · simp [show x.toNat < z.toNat by omega]
                · by_cases hzy : z.toNat < y.toNat
                  · simp [hyz, hzy] at h2
                  · simp [show x.toNat < z.toNat by omega]
              · by_cases hyx : y.toNat < x.toNat
                · simp [hxy, hyx] at h1
                · by_cases hyz : y.toNat < z.toNat
                  · simp [show x.toNat < z.toNat by omega]
                  · by_cases hzy : z.toNat < y.toNat
                    · simp [hyz, hzy] at h2
                    · have hx : ¬ x.toNat < z.toNat := by omega
                      have hz : ¬ z.toNat < x.toNat := by omega
                      simp only [hxy, hyx, if_false, if_neg] at h1
                      simp only [hyz, hzy, if_false, if_neg] at h2
                      simp [hx, hz, ih h1 h2]

instance : IsTotal FPath (fun a b => pathLe a b = true) :=
  ⟨fun a b => strLexLe_total _ _⟩

instance : IsTrans FPath (fun a b => pathLe a b = true) :=
  ⟨fun _ _ _ h1 h2 => strLexLe_trans h1 h2⟩

/-! Characterisation of the gitignore ascent. -/

theorem gitignoreProbe_fst (w : World) (absPath d : FPath) :
    (gitignoreProbe w absPath d).1 = gitignoreMatchAt w d absPath := rfl

theorem gitignoreProbe_snd (w : World) (absPath d : FPath) :
    (gitignoreProbe w absPath d).2 = Event.openIgnore (d ++ [gitignoreName]) := rfl

theorem gitignoreAscendAux_fst (w : World) (absPath : FPath) (rev : FPath) :
    (gitignoreAscendAux w absPath rev).1
      = (ancestorDirsAux rev).any (fun d => gitignoreMatchAt w d absPath) := by
  induction rev with
  | nil =>
      simp [gitignoreAscendAux, ancestorDirsAux, gitignoreProbe_fst]
  | cons a l ih =>
      simp only [gitignoreAscendAux, ancestorDirsAux, List.any_cons,
        List.reverse_cons]
      by_cases h : gitignoreMatchAt w (l.reverse ++ [a]) absPath = true
      · simp [gitignoreProbe_fst, h]
      · simp only [Bool.not_eq_true] at h
        simp [gitignoreProbe_fst, h, ih]

theorem gitignoreAscend_fst (w : World) (absPath currentDir : FPath) :
    (gitignoreAscend w absPath currentDir).1
      = (ancestorDirs currentDir).any (fun d => gitignoreMatchAt w d absPath) :=
  gitignoreAscendAux_fst w absPath currentDir.reverse

theorem gitignoreAscendAux_events (w : World) (absPath : FPath) (rev : FPath) :
    ∀ e ∈ (gitignoreAscendAux w absPath rev).2,
      ∃ q, e = Event.openIgnore (q ++ [gitignoreName]) ∧ q ∈ ancestorDirsAux rev := by
  induction rev with
  | nil =>
      intro e he
      simp only [gitignoreAscendAux, gitignoreProbe_snd, List.mem_singleton] at he
      exact ⟨[], by simpa using he, by simp [ancestorDirsAux]⟩
  | cons a l ih =>
      intro e he
      simp only [gitignoreAscendAux] at he
      by_cases h : (gitignoreProbe w absPath ((a :: l).reverse)).1 = true
      · rw [if_pos h] at he
        simp only [gitignoreProbe_snd, List.mem_singleton] at he
        exact ⟨(a :: l).reverse, he, by simp [ancestorDirsAux]⟩
      · rw [if_neg h] at he
        simp only [gitignoreProbe_snd, List.mem_cons] at he
        rcases he with he | he
        · exact ⟨(a :: l).reverse, he, by simp [ancestorDirsAux]⟩
        · rcases ih e he with ⟨q, hq1, hq2⟩
          exact ⟨q, hq1, by simp [ancestorDirsAux, hq2]⟩

theorem mem_ancestorDirsAux_isUnder {q : FPath} {rev : FPath}
    (h : q ∈ ancestorDirsAux rev) : isUnder q rev.reverse = true := by
  induction rev with
  | nil =>
      simp [ancestorDirsAux] at h
      simp [h, isUnder, List.isPrefixOf]
  | cons a l ih =>
      simp [ancestorDirsAux] at h
      rcases h with h | h
      · simp [h, isUnder_self]
      · have h1 := ih h
        refine isUnder_trans h1 ?_
        refine isUnder_iff.mpr ?_
        refine ⟨[a], by simp⟩

theorem ancestorDirsAux_ne_nil (rev : FPath) : ancestorDirsAux rev ≠ [] := by
  cases rev <;> simp [ancestorDirsAux]

theorem ancestorDirsAux_getLast (rev : FPath) :
    (ancestorDirsAux rev).getLast? = some [] := by
  induction rev with
  | nil => rfl
  | cons a l ih =>
      cases hl : ancestorDirsAux l with
      | nil => exact absurd hl (ancestorDirsAux_ne_nil l)
      | cons y ys =>
          rw [ancestorDirsAux, hl, List.getLast?_cons_cons, ← hl, ih]

theorem ancestorDirs_getLast (d : FPath) :
    (ancestorDirs d).getLast? = some [] :=
  ancestorDirsAux_getLast d.reverse

theorem mem_ancestorDirs_isUnder {q d : FPath} (h : q ∈ ancestorDirs d) :
    isUnder q d = true := by
  have h2 : q ∈ ancestorDirsAux d.reverse := by simpa [ancestorDirs] using h
  have := mem_ancestorDirsAux_isUnder h2
  simpa using this

theorem root_mem_ancestorDirs (d : FPath) : ([] : FPath) ∈ ancestorDirs d := by
  show ([] : FPath) ∈ ancestorDirsAux d.reverse
  induction d.reverse with
  | nil => simp [ancestorDirsAux]
  | cons a l ih => simp [ancestorDirsAux, ih]

/-! Membership infrastructure for `ProcessPaths`. -/

theorem mem_processPaths {w : World} {cfg : Config} {patterns : List String}
    {f : FPath} :
    f ∈ (processPathsT w cfg patterns).1
      ↔ ∃ c ∈ expandedPaths w patterns, f ∈ (candContribT w cfg c).1 := by
  simp [processPathsT, List.mem_dedup, List.mem_flatMap]

theorem mem_expandedPaths_append {w : World} {P1 P2 : List String} {c : FPath} :
    c ∈ expandedPaths w (P1 ++ P2)
      ↔ c ∈ expandedPaths w P1 ∨ c ∈ expandedPaths w P2 := by
  simp [expandedPaths, List.mem_dedup, List.mem_flatMap, or_and_right, exists_or]

theorem mem_resolve {w : World} {cfg : Config} {patterns : List String}
    {f : FPath} :
    f ∈ resolve w cfg patterns ↔ f ∈ (processPathsT w cfg patterns).1 :=
  (List.perm_insertionSort _ _).mem_iff

theorem contrib_events_mem {w : World} {cfg : Config} {patterns : List String}
    {c : FPath} {e : Event} (hc : c ∈ expandedPaths w patterns)
    (he : e ∈ (candContribT w cfg c).2) :
    e ∈ (processPathsT w cfg patterns).2 := by
  simp only [processPathsT, List.mem_append, List.mem_flatMap]
  exact Or.inr ⟨c, hc, he⟩

/-! Which events the filter stages can emit, and when they are harmless for
an excluded directory. -/

theorem isGitignoredT_events (w : World) (cfg : Config) (path : FPath) :
    ∀ e ∈ (isGitignoredT w cfg path).2,
      ∃ q, e = Event.openIgnore (q ++ [gitignoreName])
        ∧ isUnder q (w.cwd ++ path) = true := by
  intro e he
  by_cases hng : cfg.noGitignore = true
  · simp [isGitignoredT, hng] at he
  · simp only [Bool.not_eq_true] at hng
    simp only [isGitignoredT, hng, Bool.false_eq_true, if_false] at he
    rcases gitignoreAscendAux_events w (w.cwd ++ path) _ e he with ⟨q, hq1, hq2⟩
    refine ⟨q, hq1, ?_⟩
    have h1 := mem_ancestorDirsAux_isUnder hq2
    rw [List.reverse_reverse] at h1
    rcases hl : lookup w.root (w.cwd ++ path) with _ | el
    · simpa [hl] using h1
    · cases el with
      | file r c =>
          refine isUnder_trans (by simpa [hl] using h1) ?_
          exact isUnder_iff.mpr (List.dropLast_prefix _)
      | dir r ch => simpa [hl] using h1

theorem shouldSkipDirT_events (w : World) (cfg : Config) (path : FPath) :
    ∀ e ∈ (shouldSkipDirT w cfg path).2,
      ∃ q, e = Event.openIgnore (q ++ [gitignoreName])
        ∧ isUnder q (w.cwd ++ path) = true := by
  intro e he
  by_cases h1 : isExcluded w cfg path = true
  · simp [shouldSkipDirT, h1] at he
  · by_cases h2 : customIgnoreHit w cfg path = true
    · simp only [Bool.not_eq_true] at h1
      simp [shouldSkipDirT, h1, h2] at he
    · simp only [Bool.not_eq_true] at h1 h2
      simp only [shouldSkipDirT, h1, h2, Bool.false_eq_true, if_false] at he
      exact isGitignoredT_events w cfg path e he

theorem eventReadsInside_openIgnore {cwd D path q : FPath}
    (hq : isUnder q (cwd ++ path) = true)
    (hcase : path = D ∨ isUnder D path = false) :
    eventReadsInside (cwd ++ D) (Event.openIgnore (q ++ [gitignoreName])) = false := by
  simp only [eventReadsInside]
  rcases hcase with hcase | hcase
  · subst hcase
    by_cases hu : isUnder (cwd ++ path) (q ++ [gitignoreName]) = true
    · rcases isUnder_snoc hu with h | h
      · have : q = cwd ++ path := isUnder_antisymm hq h
        simp [this]
      · simp [← h]
    · simp only [Bool.not_eq_true] at hu
      simp [hu]
  · by_cases hu : isUnder (cwd ++ D) (q ++ [gitignoreName]) = true
    · rcases isUnder_snoc hu with h | h
      · have h3 : isUnder (cwd ++ D) (cwd ++ path) = true := isUnder_trans h hq
        rw [isUnder_append_left] at h3
        exact absurd h3 (by simp [hcase])
      · simp [← h]
    · simp only [Bool.not_eq_true] at hu
      simp [hu]

theorem eventReadsInside_openBin {cwd D path : FPath}
    (h : isUnder D path = false) :
    eventReadsInside (cwd ++ D) (Event.openBin (cwd ++ path)) = false := by
  simp [eventReadsInside, isUnder_append_left, h]

theorem shouldSkipDirT_events_safe {w : World} {cfg : Config} {D path : FPath}
    (hcase : path = D ∨ isUnder D path = false) :
    ∀ e ∈ (shouldSkipDirT w cfg path).2,
      eventReadsInside (w.cwd ++ D) e = false := by
  intro e he
  rcases shouldSkipDirT_events w cfg path e he with ⟨q, hq1, hq2⟩
  rw [hq1]
  exact eventReadsInside_openIgnore hq2 hcase

theorem shouldIncludeT_events_safe {w : World} {cfg : Config} {D path : FPath}
    (hD : shouldSkipDir w cfg D = true)
    (hcase : path = D ∨ isUnder D path = false) :
    ∀ e ∈ (shouldIncludeT w cfg path).2,
      eventReadsInside (w.cwd ++ D) e = false := by
  intro e he
  by_cases hs : shouldSkipDir w cfg path = true
  · simp only [shouldIncludeT, shouldSkipDir] at hs he
    rw [if_pos hs] at he
    exact shouldSkipDirT_events_safe hcase e he
  · have hpath : isUnder D path = false := by
      rcases hcase with hcase | hcase
      · exact absurd (hcase ▸ hD) hs
      · exact hcase
    simp only [shouldIncludeT, shouldSkipDir] at hs he
    simp only [Bool.not_eq_true] at hs
    rw [if_neg (by simp [hs])] at he
    by_cases hb : cfg.noBinaryCheck = true
    · rw [if_pos hb] at he
      exact shouldSkipDirT_events_safe hcase e he
    · rw [if_neg hb] at he
      rcases List.mem_append.mp he with he | he
      · exact shouldSkipDirT_events_safe hcase e he
      · simp only [isBinaryT, List.mem_singleton] at he
        rw [he]
        exact eventReadsInside_openBin hpath

/-! Equations of the specialised walk. -/

theorem walkEntryT_file (w : World) (cfg : Config) (root path : FPath)
    (r : Bool) (c : List Nat) :
    walkEntryT w cfg root path (Entry.file r c)
      = ((if (shouldIncludeT w cfg path).1 then [path] else []),
         (shouldIncludeT w cfg path).2, none) := rfl

theorem walkEntryT_dir_root (w : World) (cfg : Config) (root : FPath)
    (r : Bool) (children : List (String × Entry)) :
    walkEntryT w cfg root root (Entry.dir r children)
      = if r then
          ((walkChildrenT w cfg root root children).1,
           Event.readDirOk (w.cwd ++ root)
             :: (walkChildrenT w cfg root root children).2.1,
           (walkChildrenT w cfg root root children).2.2)
        else ([], [Event.readDirErr (w.cwd ++ root)], some root) := by
  by_cases hr : r = true <;> simp [walkEntryT, hr]

theorem walkEntryT_dir_skip (w : World) (cfg : Config) (root path : FPath)
    (r : Bool) (children : List (String × Entry)) (h1 : path ≠ root)
    (h2 : (shouldSkipDirT w cfg path).1 = true) :
    walkEntryT w cfg root path (Entry.dir r children)
      = ([], (shouldSkipDirT w cfg path).2, none) := by
  simp [walkEntryT, h1, h2]

theorem walkEntryT_dir_go (w : World) (cfg : Config) (root path : FPath)
    (r : Bool) (children : List (String × Entry)) (h1 : path ≠ root)
    (h2 : (shouldSkipDirT w cfg path).1 = false) :
    walkEntryT w cfg root path (Entry.dir r children)
      = if r then
          ((walkChildrenT w cfg root path children).1,
           (shouldSkipDirT w cfg path).2
             ++ [Event.readDirOk (w.cwd ++ path)]
             ++ (walkChildrenT w cfg root path children).2.1,
           (walkChildrenT w cfg root path children).2.2)
        else
          ([], (shouldSkipDirT w cfg path).2
             ++ [Event.readDirErr (w.cwd ++ path)], some path) := by
  by_cases hr : r = true <;> simp [walkEntryT, h1, h2, hr]

theorem walkChildrenT_cons_none (w : World) (cfg : Config)
    (root parent : FPath) (c : String × Entry) (rest : List (String × Entry))
    (h : (walkEntryT w cfg root (parent ++ [c.1]) c.2).2.2 = none) :
    walkChildrenT w cfg root parent (c :: rest)
      = ((walkEntryT w cfg root (parent ++ [c.1]) c.2).1
           ++ (walkChildrenT w cfg root parent rest).1,
         (walkEntryT w cfg root (parent ++ [c.1]) c.2).2.1
           ++ (walkChildrenT w cfg root parent rest).2.1,
         (walkChildrenT w cfg root parent rest).2.2) := by
  simp [walkChildrenT, h]

theorem walkChildrenT_cons_some (w : World) (cfg : Config)
    (root parent : FPath) (c : String × Entry) (rest : List (String × Entry))
    (q : FPath)
    (h : (walkEntryT w cfg root (parent ++ [c.1]) c.2).2.2 = some q) :
    walkChildrenT w cfg root parent (c :: rest)
      = ((walkEntryT w cfg root (parent ++ [c.1]) c.2).1,
         (walkEntryT w cfg root (parent ++ [c.1]) c.2).2.1,
         some q) := by
  simp [walkChildrenT, h]

/-! Pruning: the walk never enters an excluded directory. -/

mutual

theorem walkEntry_prune {w : World} {cfg : Config} {D : FPath}
    (hD : shouldSkipDir w cfg D = true) (root path : FPath)
    (hroot : isUnder D root = false)
    (hcase : path = D ∨ isUnder D path = false) (e : Entry) :
    (∀ f ∈ (walkEntryT w cfg root path e).1, isUnder D f = false)
    ∧ (∀ ev ∈ (walkEntryT w cfg root path e).2.1,
        eventReadsInside (w.cwd ++ D) ev = false)
    ∧ (∀ q, (walkEntryT w cfg root path e).2.2 = some q
        → isUnder D q = false) := by
  cases e with
  | file r c =>
      rw [walkEntryT_file]
      refine ⟨?_, fun ev hev => shouldIncludeT_events_safe hD hcase ev hev, by simp⟩
      intro f hf
      by_cases hi : (shouldIncludeT w cfg path).1 = true
      · rw [if_pos hi] at hf
        have hf2 : f = path := by simpa using hf
        subst hf2
        rcases hcase with hcase | hcase
        · exfalso
          rw [hcase] at hi
          have hskip : (shouldSkipDirT w cfg D).1 = true := hD
          simp [shouldIncludeT, hskip] at hi
        · exact hcase
      · rw [if_neg hi] at hf
        simp at hf
  | dir readable children =>
      by_cases hpr : path = root
      · rw [hpr, walkEntryT_dir_root]
        have hch := walkChildren_prune hD root root hroot hroot children
        by_cases hr : readable = true
        · rw [if_pos hr]
          refine ⟨hch.1, ?_, hch.2.2⟩
          intro ev hev
          rcases List.mem_cons.mp hev with hev | hev
          · rw [hev]
            simp [eventReadsInside, isUnder_append_left, hroot]
          · exact hch.2.1 ev hev
        · rw [if_neg hr]
          refine ⟨by simp, ?_, ?_⟩
          · intro ev hev
            have hev2 : ev = Event.readDirErr (w.cwd ++ root) := by
              simpa using hev
            rw [hev2]
            simp [eventReadsInside, isUnder_append_left, hroot]
          · intro q hq
            have hq2 : root = q := by simpa using hq
            exact hq2 ▸ hroot
      · by_cases hs : (shouldSkipDirT w cfg path).1 = true
        · rw [walkEntryT_dir_skip w cfg root path readable children hpr hs]
          exact ⟨by simp, fun ev hev => shouldSkipDirT_events_safe hcase ev hev,
            by simp⟩
        · have hs2 : (shouldSkipDirT w cfg path).1 = false := by
            simpa using hs
          have hpath : isUnder D path = false := by
            rcases hcase with hcase | hcase
            · exact absurd (hcase ▸ hD) hs
            · exact hcase
          rw [walkEntryT_dir_go w cfg root path readable children hpr hs2]
          have hch := walkChildren_prune hD root path hroot hpath children
          by_cases hr : readable = true
          · rw [if_pos hr]
            refine ⟨hch.1, ?_, hch.2.2⟩
            intro ev hev
            rcases List.mem_append.mp hev with hev | hev
            · rcases List.mem_append.mp hev with hev | hev
              · exact shouldSkipDirT_events_safe hcase ev hev
              · have hev2 : ev = Event.readDirOk (w.cwd ++ path) := by
                  simpa using hev
                rw [hev2]
                simp [eventReadsInside, isUnder_append_left, hpath]
            · exact hch.2.1 ev hev
          · rw [if_neg hr]
            refine ⟨by simp, ?_, ?_⟩
            · intro ev hev
              rcases List.mem_append.mp hev with hev | hev
              · exact shouldSkipDirT_events_safe hcase ev hev
              · have hev2 : ev = Event.readDirErr (w.cwd ++ path) := by
                  simpa using hev
                rw [hev2]
                simp [eventReadsInside, isUnder_append_left, hpath]
            · intro q hq
              have hq2 : path = q := by simpa using hq
              exact hq2 ▸ hpath

theorem walkChildren_prune {w : World} {cfg : Config} {D : FPath}
    (hD : shouldSkipDir w cfg D = true) (root parent : FPath)
    (hroot : isUnder D root = false)
    (hparent : isUnder D parent = false)
    (children : List (String × Entry)) :
    (∀ f ∈ (walkChildrenT w cfg root parent children).1, isUnder D f = false)
    ∧ (∀ ev ∈ (walkChildrenT w cfg root parent children).2.1,
        eventReadsInside (w.cwd ++ D) ev = false)
    ∧ (∀ q, (walkChildrenT w cfg root parent children).2.2 = some q
        → isUnder D q = false) := by
  cases children with
  | nil => exact ⟨by simp [walkChildrenT], by simp [walkChildrenT],
      by simp [walkChildrenT]⟩
  | cons c rest =>
      have hchild : parent ++ [c.1] = D
          ∨ isUnder D (parent ++ [c.1]) = false := by
        by_cases h : isUnder D (parent ++ [c.1]) = true
        · rcases isUnder_snoc h with h1 | h1
          · exact absurd h1 (by simp [hparent])
          · exact Or.inl h1.symm
        · exact Or.inr (by simpa using h)
      have he := walkEntry_prune hD root (parent ++ [c.1]) hroot hchild c.2
      rcases hout : (walkEntryT w cfg root (parent ++ [c.1]) c.2).2.2 with _ | q
      · rw [walkChildrenT_cons_none w cfg root parent c rest hout]
        have hrest := walkChildren_prune hD root parent hroot hparent rest
        refine ⟨?_, ?_, hrest.2.2⟩
        · intro f hf
          rcases List.mem_append.mp hf with hf | hf
          · exact he.1 f hf
          · exact hrest.1 f hf
        · intro ev hev
          rcases List.mem_append.mp hev with hev | hev
          · exact he.2.1 ev hev
          · exact hrest.2.1 ev hev
      · rw [walkChildrenT_cons_some w cfg root parent c rest q hout]
        refine ⟨he.1, he.2.1, ?_⟩
        intro q2 hq2
        have hq3 : q = q2 := by simpa using hq2
        exact hq3 ▸ he.2.2 q hout

end

/-! Value-level normal forms of the filter. -/

theorem shouldSkipDir_eq (w : World) (cfg : Config) (path : FPath) :
    shouldSkipDir w cfg path
      = (isExcluded w cfg path || customIgnoreHit w cfg path
          || isGitignored w cfg path) := by
  by_cases h1 : isExcluded w cfg path = true <;>
    by_cases h2 : customIgnoreHit w cfg path = true <;>
      simp [shouldSkipDir, shouldSkipDirT, isGitignored, h1, h2]

theorem shouldInclude_eq (w : World) (cfg : Config) (path : FPath) :
    shouldInclude w cfg path
      = (!shouldSkipDir w cfg path
          && !(!cfg.noBinaryCheck && isBinary w path)) := by
  by_cases hs : (shouldSkipDirT w cfg path).1 = true <;>
    by_cases hb : cfg.noBinaryCheck = true <;>
      simp [shouldInclude, shouldIncludeT, shouldSkipDir, isBinary, hs, hb]

theorem shouldIncludeT_events_noWarn (w : World) (cfg : Config) (path : FPath) :
    ∀ e ∈ (shouldIncludeT w cfg path).2, e.isWarn = false := by
  intro e he
  by_cases hs : (shouldSkipDirT w cfg path).1 = true
  · simp only [shouldIncludeT] at he
    rw [if_pos hs] at he
    rcases shouldSkipDirT_events w cfg path e he with ⟨q, hq, _⟩
    simp [hq, Event.isWarn]
  · simp only [shouldIncludeT] at he
    rw [if_neg hs] at he
    by_cases hb : cfg.noBinaryCheck = true
    · rw [if_pos hb] at he
      rcases shouldSkipDirT_events w cfg path e he with ⟨q, hq, _⟩
      simp [hq, Event.isWarn]
    · rw [if_neg hb] at he
      rcases List.mem_append.mp he with he | he
      · rcases shouldSkipDirT_events w cfg path e he with ⟨q, hq, _⟩
        simp [hq, Event.isWarn]
      · have he2 : e = Event.openBin (w.cwd ++ path) := by
          simpa [isBinaryT] using he
        simp [he2, Event.isWarn]

theorem shouldSkipDirT_events_noWarn (w : World) (cfg : Config) (path : FPath) :
    ∀ e ∈ (shouldSkipDirT w cfg path).2, e.isWarn = false := by
  intro e he
  rcases shouldSkipDirT_events w cfg path e he with ⟨q, hq, _⟩
  simp [hq, Event.isWarn]

/-! The walk trace never contains a diagnostic: warnings are added by
`ProcessPaths` afterwards. -/

mutual

theorem walkEntry_no_warn (w : World) (cfg : Config) (root path : FPath)
    (e : Entry) :
    ∀ ev ∈ (walkEntryT w cfg root path e).2.1, ev.isWarn = false := by
  cases e with
  | file r c =>
      rw [walkEntryT_file]
      exact fun ev hev => shouldIncludeT_events_noWarn w cfg path ev hev
  | dir readable children =>
      intro ev hev
      by_cases hpr : path = root
      · rw [hpr, walkEntryT_dir_root] at hev
        by_cases hr : readable = true
        · rw [if_pos hr] at hev
          rcases List.mem_cons.mp hev with hev | hev
          · simp [hev, Event.isWarn]
          · exact walkChildren_no_warn w cfg root root children ev hev
        · rw [if_neg hr] at hev
          have hev2 : ev = Event.readDirErr (w.cwd ++ root) := by simpa using hev
          simp [hev2, Event.isWarn]
      · by_cases hs : (shouldSkipDirT w cfg path).1 = true
        · rw [walkEntryT_dir_skip w cfg root path readable children hpr hs] at hev
          exact shouldSkipDirT_events_noWarn w cfg path ev hev
        · have hs2 : (shouldSkipDirT w cfg path).1 = false := by simpa using hs
          rw [walkEntryT_dir_go w cfg root path readable children hpr hs2] at hev
          by_cases hr : readable = true
          · rw [if_pos hr] at hev
            rcases List.mem_append.mp hev with hev | hev
            · rcases List.mem_append.mp hev with hev | hev
              · exact shouldSkipDirT_events_noWarn w cfg path ev hev
              · have hev2 : ev = Event.readDirOk (w.cwd ++ path) := by
                  simpa using hev
                simp [hev2, Event.isWarn]
            · exact walkChildren_no_warn w cfg root path children ev hev
          · rw [if_neg hr] at hev
            rcases List.mem_append.mp hev with hev | hev
            · exact shouldSkipDirT_events_noWarn w cfg path ev hev
            · have hev2 : ev = Event.readDirErr (w.cwd ++ path) := by
                simpa using hev
              simp [hev2, Event.isWarn]

theorem walkChildren_no_warn (w : World) (cfg : Config) (root parent : FPath)
    (children : List (String × Entry)) :
    ∀ ev ∈ (walkChildrenT w cfg root parent children).2.1, ev.isWarn = false := by
  cases children with
  | nil => simp [walkChildrenT]
  | cons c rest =>
      intro ev hev
      rcases hout : (walkEntryT w cfg root (parent ++ [c.1]) c.2).2.2 with _ | q
      · rw [walkChildrenT_cons_none w cfg root parent c rest hout] at hev
        rcases List.mem_append.mp hev with hev | hev
        · exact walkEntry_no_warn w cfg root (parent ++ [c.1]) c.2 ev hev
        · exact walkChildren_no_warn w cfg root parent rest ev hev
      · rw [walkChildrenT_cons_some w cfg root parent c rest q hout] at hev
        exact walkEntry_no_warn w cfg root (parent ++ [c.1]) c.2 ev hev

end

/-! Pruning lifted to one candidate and to the whole run. -/

theorem candContrib_prune {w : World} {cfg : Config} {D cand : FPath}
    (hD : shouldSkipDir w cfg D = true) (hc : isUnder D cand = false) :
    (∀ f ∈ (candContribT w cfg cand).1, isUnder D f = false)
    ∧ (∀ e ∈ (candContribT w cfg cand).2,
        eventReadsInside (w.cwd ++ D) e = false)
    ∧ (∀ r p, Event.warnWalk r p ∈ (candContribT w cfg cand).2
        → p ≠ w.cwd ++ D) := by
  rcases hl : lookup w.root (w.cwd ++ cand) with _ | el
  · simp [candContribT, hl]
  · cases el with
    | file r c =>
        refine ⟨?_, ?_, ?_⟩
        · intro f hf
          simp only [candContribT, hl] at hf
          by_cases hi : (shouldIncludeT w cfg cand).1 = true
          · rw [if_pos hi] at hf
            have hf2 : f = cand := by simpa using hf
            exact hf2 ▸ hc
          · rw [if_neg hi] at hf
            simp at hf
        · intro e he
          simp only [candContribT, hl] at he
          exact shouldIncludeT_events_safe hD (Or.inr hc) e he
        · intro r0 p hp
          simp only [candContribT, hl] at hp
          have := shouldIncludeT_events_noWarn w cfg cand _ hp
          simp [Event.isWarn] at this
    | dir r ch =>
        have hw := walkEntry_prune hD cand cand hc (Or.inr hc) (Entry.dir r ch)
        refine ⟨?_, ?_, ?_⟩
        · intro f hf
          simp only [candContribT, hl] at hf
          exact hw.1 f hf
        · intro e he
          simp only [candContribT, hl] at he
          rcases List.mem_append.mp he with he | he
          · exact hw.2.1 e he
          · rcases hout : (walkEntryT w cfg cand cand (Entry.dir r ch)).2.2
              with _ | q
            · rw [hout] at he
              simp at he
            · rw [hout] at he
              have he2 : e = Event.warnWalk (w.cwd ++ cand) (w.cwd ++ q) := by
                simpa using he
              simp [he2, eventReadsInside]
        · intro r0 p hp
          simp only [candContribT, hl] at hp
          rcases List.mem_append.mp hp with hp | hp
          · have := walkEntry_no_warn w cfg cand cand (Entry.dir r ch) _ hp
            simp [Event.isWarn] at this
          · rcases hout : (walkEntryT w cfg cand cand (Entry.dir r ch)).2.2
              with _ | q
            · rw [hout] at hp
              simp at hp
            · rw [hout] at hp
              have hp2 :
                  Event.warnWalk r0 p
                    = Event.warnWalk (w.cwd ++ cand) (w.cwd ++ q) := by
                simpa using hp
              have hpq : p = w.cwd ++ q := by
                injection hp2 with h1 h2
              intro hcontra
              have hqD : q = D :=
                List.append_cancel_left (hpq ▸ hcontra)
              have := hw.2.2 q hout
              rw [hqD] at this
              exact absurd (isUnder_self D) (by simp [this])

/-! Warnings emitted for invalid glob patterns. -/

theorem globWarns_events {w : World} {patterns : List String} {e : Event}
    (he : e ∈ globWarns w patterns) : ∃ s, e = Event.warnGlob s := by
  simp only [globWarns, List.mem_flatMap] at he
  rcases he with ⟨s, _, he⟩
  rcases hg : w.glob s with _ | v
  · rw [hg] at he
    exact ⟨s, by simpa using he⟩
  · rw [hg] at he
    simp at he

/-- C1: for every candidate path and configuration the filter is the fixed
four-stage chain — explicit exclude globs, then the global custom ignore
matcher, then the `.gitignore` hierarchy, then (files only, inside
`shouldInclude`) the binary heuristic — short-circuiting on the first match:
the path is included iff no stage excludes it; a stage-1 or stage-2 match
leaves an empty I/O trace (nothing later is evaluated), once stages 1-3
exclude no binary-check open happens, `shouldSkipDir` (the directory form)
never opens a file for the binary check, and with gitignore support
disabled the gitignore stage excludes nothing, so a path matched only by a
`.gitignore` rule is included. -/
theorem spec_c1_filter_precedence (w : World) (cfg : Config) (path : FPath) :
    (shouldInclude w cfg path
      = (!isExcluded w cfg path && !customIgnoreHit w cfg path
          && !isGitignored w cfg path
          && !(!cfg.noBinaryCheck && isBinary w path)))
    ∧ (isExcluded w cfg path = true → (shouldIncludeT w cfg path).2 = [])
    ∧ (customIgnoreHit w cfg path = true → (shouldIncludeT w cfg path).2 = [])
    ∧ (shouldSkipDir w cfg path = true
        → ∀ p, Event.openBin p ∉ (shouldIncludeT w cfg path).2)
    ∧ (∀ p, Event.openBin p ∉ (shouldSkipDirT w cfg path).2)
    ∧ (cfg.noGitignore = true → isGitignored w cfg path = false)
    ∧ (cfg.noGitignore = true → isExcluded w cfg path = false
        → customIgnoreHit w cfg path = false
        → (!cfg.noBinaryCheck && isBinary w path) = false
        → shouldInclude w cfg path = true) := by
  have hng : ∀ _ : cfg.noGitignore = true, isGitignored w cfg path = false := by
    intro h
    simp [isGitignored, isGitignoredT, h]
  refine ⟨?_, ?_, ?_, ?_, ?_, hng, ?_⟩
  · rw [shouldInclude_eq, shouldSkipDir_eq]
    simp [Bool.and_assoc]
  · intro h
    simp [shouldIncludeT, shouldSkipDirT, h]
  · intro h
    by_cases h1 : isExcluded w cfg path = true <;>
      simp [shouldIncludeT, shouldSkipDirT, h, h1]
  · intro h p hmem
    have h2 : (shouldSkipDirT w cfg path).1 = true := h
    simp only [shouldIncludeT] at hmem
    rw [if_pos h2] at hmem
    rcases shouldSkipDirT_events w cfg path _ hmem with ⟨q, hq, _⟩
    exact absurd hq (by simp)
  · intro p hmem
    rcases shouldSkipDirT_events w cfg path _ hmem with ⟨q, hq, _⟩
    exact absurd hq (by simp)
  · intro h1 h2 h3 h4
    rw [shouldInclude_eq, shouldSkipDir_eq, h2, h3, hng h1, h4]
    rfl

/-- C4: the gitignore resolver reports "ignored" exactly when the
`.gitignore` ruleset of some directory on the ancestor chain — the chain
starting at the path's own directory for an existing file, at the path
itself otherwise — matches the path expressed relative to that directory;
every chain element is an ancestor, the chain ends at the filesystem root,
and with gitignore support disabled the resolver answers `false` with an
empty I/O trace. -/
theorem spec_c4_gitignore_hierarchy (w : World) (cfg : Config) (path : FPath) :
    (isGitignored w cfg path
      = (!cfg.noGitignore
          && (ancestorDirs (startDir w path)).any
              (fun d => gitignoreMatchAt w d (w.cwd ++ path))))
    ∧ (∀ d ∈ ancestorDirs (startDir w path), isUnder d (startDir w path) = true)
    ∧ (ancestorDirs (startDir w path)).getLast? = some []
    ∧ (cfg.noGitignore = true → (isGitignoredT w cfg path).2 = []) := by
  refine ⟨?_, fun d hd => mem_ancestorDirs_isUnder hd, ancestorDirs_getLast _, ?_⟩
  · by_cases hg : cfg.noGitignore = true
    · simp [isGitignored, isGitignoredT, hg]
    · simp only [Bool.not_eq_true] at hg
      have h1 : isGitignored w cfg path
          = (gitignoreAscend w (w.cwd ++ path) (startDir w path)).1 := by
        simp [isGitignored, isGitignoredT, hg, startDir]
      rw [h1, gitignoreAscend_fst, hg]
      simp
  · intro h
    simp [isGitignoredT, h]

/-- C6: for every input list the resolver output is duplicate-free and
sorted lexicographically by the slash-joined path string, and a file
appears in it exactly when some expanded candidate contributes it — so a
file matched by several overlapping inputs appears once. -/
theorem spec_c6_sorted_dedup (w : World) (cfg : Config)
    (patterns : List String) :
    (resolve w cfg patterns).Nodup
    ∧ List.Sorted (fun a b => pathLe a b = true) (resolve w cfg patterns)
    ∧ (∀ f, f ∈ resolve w cfg patterns
        ↔ ∃ c ∈ expandedPaths w patterns, f ∈ (candContribT w cfg c).1) := by
  refine ⟨?_, List.sorted_insertionSort _ _, ?_⟩
  · exact ((List.perm_insertionSort _ _).nodup_iff).mpr (List.nodup_dedup _)
  · intro f
    rw [mem_resolve, mem_processPaths]

/-- C7: for a readable regular file that survives stages 1-3, with the
binary check enabled the file is excluded exactly when its first
`min(size, 1024)` bytes contain a zero byte; with the check disabled it is
always included. -/
theorem spec_c7_binary_heuristic (w : World) (cfg : Config) (path : FPath)
    (bytes : List Nat)
    (hf : lookup w.root (w.cwd ++ path) = some (Entry.file true bytes))
    (hsurv : shouldSkipDir w cfg path = false) :
    (cfg.noBinaryCheck = false
      → (shouldInclude w cfg path = false
          ↔ (bytes.take 1024).contains 0 = true))
    ∧ (cfg.noBinaryCheck = true → shouldInclude w cfg path = true) := by
  have hbin : isBinary w path = (bytes.take 1024).contains 0 := by
    simp [isBinary, isBinaryT, hf]
  constructor
  · intro hb
    rw [shouldInclude_eq, hsurv, hb, hbin]
    cases h0 : (bytes.take 1024).contains 0 <;> simp
  · intro hb
    rw [shouldInclude_eq, hsurv, hb]
    simp

/-! C9: resolving a combined input equals the union of the separate
resolutions. -/

/-- Two input lists whose expanded candidates live in disjoint,
non-overlapping directory trees. -/
def disjointTrees (w : World) (P1 P2 : List String) : Prop :=
  ∀ a ∈ expandedPaths w P1, ∀ b ∈ expandedPaths w P2,
    isUnder a b = false ∧ isUnder b a = false

instance (w : World) (P1 P2 : List String) :
    Decidable (disjointTrees w P1 P2) := by
  unfold disjointTrees
  exact inferInstance

/-- C9: for input sets rooted in disjoint, non-overlapping trees (and in
fact for arbitrary inputs: every candidate is filtered independently and
the results are unioned as a set), the resolution of the concatenated
inputs contains exactly the files of the two separate resolutions. -/
theorem spec_c9_union (w : World) (cfg : Config) (P1 P2 : List String)
    (hdisj : disjointTrees w P1 P2) :
    ∀ f, f ∈ resolve w cfg (P1 ++ P2)
      ↔ (f ∈ resolve w cfg P1 ∨ f ∈ resolve w cfg P2) := by
  intro f
  rw [mem_resolve, mem_resolve, mem_resolve, mem_processPaths,
    mem_processPaths, mem_processPaths]
  constructor
  · rintro ⟨c, hc, hf⟩
    rcases mem_expandedPaths_append.mp hc with h | h
    · exact Or.inl ⟨c, h, hf⟩
    · exact Or.inr ⟨c, h, hf⟩
  · rintro (⟨c, hc, hf⟩ | ⟨c, hc, hf⟩)
    · exact ⟨c, mem_expandedPaths_append.mpr (Or.inl hc), hf⟩
    · exact ⟨c, mem_expandedPaths_append.mpr (Or.inr hc), hf⟩

/-- C10: the custom ignore matcher is consulted with the walk path made
relative to the working directory (which, for the relative cleaned paths
produced by the walk, is the path as given — the error fallback of the
source also yields the path as given); its verdict is a function of the
collected pattern lines alone, so it does not depend on where the ignore
files live: two runs whose ignore files decode to the same lines agree on
every path, wherever those files are stored. -/
theorem spec_c10_custom_ignore_cwd_relative (w1 w2 : World)
    (cfg1 cfg2 : Config) (path : FPath)
    (hm : w1.matchLines = w2.matchLines)
    (hp : allPatterns w1 cfg1 = allPatterns w2 cfg2) :
    (customIgnoreHit w1 cfg1 path
      = (match customIgnoreMatcher w1 cfg1 with
         | some m => m (toSlash (relDot path))
         | none => false))
    ∧ (shouldSkipDir w1 cfg1 path
      = (isExcluded w1 cfg1 path || customIgnoreHit w1 cfg1 path
          || isGitignored w1 cfg1 path))
    ∧ customIgnoreHit w1 cfg1 path = customIgnoreHit w2 cfg2 path := by
  refine ⟨rfl, shouldSkipDir_eq w1 cfg1 path, ?_⟩
  simp only [customIgnoreHit, customIgnoreMatcher, hp, hm]

/-! Concrete worlds for witnesses, the code-bug evaluation, and the
counterexamples. -/

/-- A world whose gitignore oracle matches everything (once a `.gitignore`
file exists), used to witness C1. -/
def wC1 : World :=
  { cwd := []
    root := Entry.dir true
      [(".gitignore", Entry.file true [9]),
       ("a", Entry.file true [7])]
    pathMatch := fun _ _ => false
    matchLines := fun _ _ => true
    decodeLines := fun _ => ["a"]
    glob := fun _ => some [] }

/-- C1 witness configuration with gitignore support disabled. -/
def cfgC1off : Config :=
  { noRecursive := false, noGitignore := true, ignoreFiles := []
    excludeGlobs := [], noBinaryCheck := true }

/-- C1 witness configuration with gitignore support enabled. -/
def cfgC1on : Config :=
  { noRecursive := false, noGitignore := false, ignoreFiles := []
    excludeGlobs := [], noBinaryCheck := true }

/-- C1 witness: in `wC1` the file `a` is matched by the `.gitignore`
oracle (gitignore enabled shows the rule fires), yet with gitignore
support disabled and no other stage matching, the path is included. -/
theorem spec_c1_filter_precedence_witness :
    isGitignored wC1 cfgC1on ["a"] = true
    ∧ cfgC1off.noGitignore = true
    ∧ isExcluded wC1 cfgC1off ["a"] = false
    ∧ customIgnoreHit wC1 cfgC1off ["a"] = false
    ∧ (!cfgC1off.noBinaryCheck && isBinary wC1 ["a"]) = false
    ∧ shouldInclude wC1 cfgC1off ["a"] = true :=
  ⟨rfl, rfl, rfl, rfl, rfl,
    (spec_c1_filter_precedence wC1 cfgC1off ["a"]).2.2.2.2.2.2
      rfl rfl rfl rfl⟩

/-- C4 witness world: one `.gitignore` at the root of the tree. -/
def wC4 : World :=
  { cwd := []
    root := Entry.dir true
      [(".gitignore", Entry.file true [1]),
       ("a", Entry.file true [7])]
    pathMatch := fun _ _ => false
    matchLines := fun _ s => s == "a"
    decodeLines := fun _ => ["a"]
    glob := fun _ => some [] }

/-- C4 witness configuration: gitignore disabled. -/
def cfgC4 : Config :=
  { noRecursive := false, noGitignore := true, ignoreFiles := []
    excludeGlobs := [], noBinaryCheck := true }

/-- C4 witness: with gitignore support disabled the resolver answers
`false` for `a` with an empty I/O trace, although the rule would match. -/
theorem spec_c4_gitignore_hierarchy_witness :
    cfgC4.noGitignore = true
    ∧ (isGitignoredT wC4 cfgC4 ["a"]).2 = []
    ∧ isGitignored wC4 { cfgC4 with noGitignore := false } ["a"] = true :=
  ⟨rfl, (spec_c4_gitignore_hierarchy wC4 cfgC4 ["a"]).2.2.2 rfl, rfl⟩

/-- C7 witness world: a readable file whose first byte is zero. -/
def wC7 : World :=
  { cwd := []
    root := Entry.dir true [("b.bin", Entry.file true [0])]
    pathMatch := fun _ _ => false
    matchLines := fun _ _ => false
    decodeLines := fun _ => []
    glob := fun _ => some [] }

/-- C7 witness configuration: binary check enabled. -/
def cfgC7 : Config :=
  { noRecursive := false, noGitignore := true, ignoreFiles := []
    excludeGlobs := [], noBinaryCheck := false }

/-- C7 witness: the zero-byte file survives stages 1-3 and is excluded
exactly by the binary heuristic. -/
theorem spec_c7_binary_heuristic_witness :
    lookup wC7.root ([] ++ ["b.bin"]) = some (Entry.file true [0])
    ∧ shouldSkipDir wC7 cfgC7 ["b.bin"] = false
    ∧ cfgC7.noBinaryCheck = false
    ∧ (shouldInclude wC7 cfgC7 ["b.bin"] = false
        ↔ (([0] : List Nat).take 1024).contains 0 = true) :=
  ⟨rfl, rfl, rfl,
    (spec_c7_binary_heuristic wC7 cfgC7 ["b.bin"] [0] rfl rfl).1 rfl⟩

/-- C9 witness world: two disjoint directory trees `a` and `b`. -/
def wC9 : World :=
  { cwd := []
    root := Entry.dir true
      [("a", Entry.dir true [("f.txt", Entry.file true [104])]),
       ("b", Entry.dir true [("g.txt", Entry.file true [104])])]
    pathMatch := fun _ _ => false
    matchLines := fun _ _ => false
    decodeLines := fun _ => []
    glob := fun s => if s = "a" then some [["a"]]
      else if s = "b" then some [["b"]] else some [] }

/-- C9 witness configuration. -/
def cfgC9 : Config :=
  { noRecursive := false, noGitignore := true, ignoreFiles := []
    excludeGlobs := [], noBinaryCheck := true }

/-- C9 witness: the two trees are disjoint and the combined resolution of
`a` and `b` agrees with the union of the separate resolutions. -/
theorem spec_c9_union_witness :
    disjointTrees wC9 ["a"] ["b"]
    ∧ (["a", "f.txt"] ∈ resolve wC9 cfgC9 (["a"] ++ ["b"])
        ↔ (["a", "f.txt"] ∈ resolve wC9 cfgC9 ["a"]
            ∨ ["a", "f.txt"] ∈ resolve wC9 cfgC9 ["b"])) :=
  ⟨by decide, spec_c9_union wC9 cfgC9 ["a"] ["b"] (by decide) ["a", "f.txt"]⟩

/-- The shared line-matching oracle of the C10 witness worlds. -/
def mlC10 : List String → String → Bool := fun lines s => lines.contains s

/-- The shared line-decoding oracle of the C10 witness worlds. -/
def dlC10 : List Nat → List String := fun _ => ["x"]

/-- C10 witness world with the custom ignore file at the top level. -/
def w10a : World :=
  { cwd := []
    root := Entry.dir true
      [("ig", Entry.file true [1]), ("x", Entry.file true [2])]
    pathMatch := fun _ _ => false
    matchLines := mlC10
    decodeLines := dlC10
    glob := fun _ => some [] }

/-- C10 witness world with an identical custom ignore file nested one
directory deeper. -/
def w10b : World :=
  { cwd := []
    root := Entry.dir true
      [("sub", Entry.dir true [("ig2", Entry.file true [1])]),
       ("x", Entry.file true [2])]
    pathMatch := fun _ _ => false
    matchLines := mlC10
    decodeLines := dlC10
    glob := fun _ => some [] }

/-- C10 witness configuration pointing at the top-level ignore file. -/
def cfg10a : Config :=
  { noRecursive := false, noGitignore := true, ignoreFiles := [["ig"]]
    excludeGlobs := [], noBinaryCheck := true }

/-- C10 witness configuration pointing at the nested ignore file. -/
def cfg10b : Config :=
  { noRecursive := false, noGitignore := true
    ignoreFiles := [["sub", "ig2"]]
    excludeGlobs := [], noBinaryCheck := true }

/-- C10 witness: relocating the custom ignore file (same decoded lines)
does not change the stage-2 verdict on the path `x`. -/
theorem spec_c10_custom_ignore_cwd_relative_witness :
    w10a.matchLines = w10b.matchLines
    ∧ allPatterns w10a cfg10a = allPatterns w10b cfg10b
    ∧ customIgnoreHit w10a cfg10a ["x"] = customIgnoreHit w10b cfg10b ["x"]
    ∧ customIgnoreHit w10a cfg10a ["x"] = true :=
  ⟨rfl, rfl,
    (spec_c10_custom_ignore_cwd_relative w10a w10b cfg10a cfg10b ["x"]
      rfl rfl).2.2, rfl⟩

/-! C2: the `--no-recursive` flag. -/

/-- C2 world: the directory `d` contains only the subdirectory `sub`,
whose file `f.txt` sits two levels below `d`. -/
def wC2 : World :=
  { cwd := []
    root := Entry.dir true
      [("d", Entry.dir true
        [("sub", Entry.dir true
          [("f.txt", Entry.file true [104, 105])])])]
    pathMatch := fun _ _ => false
    matchLines := fun _ _ => false
    decodeLines := fun _ => []
    glob := fun s => if s = "d" then some [["d"]] else some [] }

/-- C2 configuration: non-recursive mode requested. -/
def cfgC2 : Config :=
  { noRecursive := true, noGitignore := true, ignoreFiles := []
    excludeGlobs := [], noBinaryCheck := false }

/-- C2: evaluating the resolver at the failing input.  With
`noRecursive = true` and the literal input `d` (no recursive wildcard), the
resolver nevertheless returns the file `d/sub/f.txt`, which is nested two
levels below the directory — the `NoRecursive` conditional in
`ProcessPaths` (processor.go lines 104-108) has an empty body and the walk
callback never consults the flag, so descent is never limited.  The claim
(and the repository's own tests `TestNoRecursive` and the e2e case
"no recursive flag") require only direct children to be considered. -/
theorem spec_c2_norecursive_ignored :
    cfgC2.noRecursive = true
    ∧ wC2.glob "d" = some [["d"]]
    ∧ resolve wC2 cfgC2 ["d"] = [["d", "sub", "f.txt"]]
    ∧ (["d", "sub", "f.txt"] : FPath).length = (["d"] : FPath).length + 2 :=
  ⟨rfl, rfl, rfl, rfl⟩

/-! C3: pruning an excluded directory. -/

/-- C3 world: `p/.gitignore` decodes to a rule matching `dist`; the
excluded directory `p/dist` itself contains a readable `.gitignore` and a
file. -/
def wC3 : World :=
  { cwd := []
    root := Entry.dir true
      [("p", Entry.dir true
        [(".gitignore", Entry.file true [1]),
         ("dist", Entry.dir true
           [(".gitignore", Entry.file true [2]),
            ("x.txt", Entry.file true [104])]),
         ("m.txt", Entry.file true [104])])]
    pathMatch := fun _ _ => false
    matchLines := fun lines s => lines.contains (s ++ "/")
    decodeLines := fun bs => if bs = [1] then ["dist/"] else ["zzz"]
    glob := fun s => if s = "p" then some [["p"]] else some [] }

/-- C3 configuration: gitignore support enabled. -/
def cfgC3 : Config :=
  { noRecursive := false, noGitignore := false, ignoreFiles := []
    excludeGlobs := [], noBinaryCheck := true }

/-- C3 counterexample: `p/dist` is excluded by stages 1-3 and lies strictly
below the walk root `p`, yet the run's trace contains the attempt to open
`p/dist/.gitignore` — an existing, readable file *inside* the excluded
directory, probed by the gitignore stage while deciding `p/dist` itself —
refuting "the walker never ... opens any file inside D" as stated. -/
theorem spec_c3_counterexample :
    shouldSkipDir wC3 cfgC3 ["p", "dist"] = true
    ∧ isUnder ["p"] ["p", "dist"] = true
    ∧ (["p", "dist"] : FPath) ≠ ["p"]
    ∧ Event.openIgnore ["p", "dist", ".gitignore"]
        ∈ (processPathsT wC3 cfgC3 ["p"]).2
    ∧ lookup wC3.root ["p", "dist", ".gitignore"]
        = some (Entry.file true [2]) :=
  ⟨rfl, rfl, by decide, by decide, rfl⟩

/-- C3 (amended): for every directory `D` excluded by stages 1-3 that is
not an ancestor of any expanded candidate, no file inside `D` appears in
the result; the walk never lists `D` (no `readDir` event at or below it),
never opens a file inside `D` for the binary check, and the only ignore
probe inside `D` is of `D`'s own `.gitignore` (made while deciding `D`'s
exclusion, failing silently when `D` is unreadable); in particular no walk
warning ever names `D`, so an excluded permission-denied directory
produces no read-error warning. -/
theorem spec_c3_pruning (w : World) (cfg : Config) (patterns : List String)
    (D : FPath) (hD : shouldSkipDir w cfg D = true)
    (hcand : ∀ c ∈ expandedPaths w patterns, isUnder D c = false) :
    (∀ f ∈ resolve w cfg patterns, isUnder D f = false)
    ∧ (∀ e ∈ (processPathsT w cfg patterns).2,
        eventReadsInside (w.cwd ++ D) e = false)
    ∧ (∀ r p, Event.warnWalk r p ∈ (processPathsT w cfg patterns).2
        → p ≠ w.cwd ++ D) := by
  refine ⟨?_, ?_, ?_⟩
  · intro f hf
    rcases mem_processPaths.mp (mem_resolve.mp hf) with ⟨c, hc, hfc⟩
    exact (candContrib_prune hD (hcand c hc)).1 f hfc
  · intro e he
    simp only [processPathsT, List.mem_append, List.mem_flatMap] at he
    rcases he with he | ⟨c, hc, hec⟩
    · rcases globWarns_events he with ⟨s, rfl⟩
      rfl
    · exact (candContrib_prune hD (hcand c hc)).2.1 e hec
  · intro r p hp
    simp only [processPathsT, List.mem_append, List.mem_flatMap] at hp
    rcases hp with hp | ⟨c, hc, hpc⟩
    · rcases globWarns_events hp with ⟨s, hs⟩
      exact absurd hs (by simp)
    · exact (candContrib_prune hD (hcand c hc)).2.2 r p hpc

/-- C3 witness: in the counterexample world, `p/dist` is excluded, the only
candidate `p` is not below it, and indeed no resolved file lies inside
`p/dist`. -/
theorem spec_c3_pruning_witness :
    shouldSkipDir wC3 cfgC3 ["p", "dist"] = true
    ∧ (∀ c ∈ expandedPaths wC3 ["p"], isUnder ["p", "dist"] c = false)
    ∧ (∀ f ∈ resolve wC3 cfgC3 ["p"], isUnder ["p", "dist"] f = false) :=
  ⟨rfl, by decide,
    (spec_c3_pruning wC3 cfgC3 ["p"] ["p", "dist"] rfl (by decide)).1⟩

/-! C5: an unreadable directory during a walk. -/

/-- C5 world: the tree `t` holds an unreadable directory `bad` followed (in
walk order) by the perfectly includable file `zz.txt`. -/
def wC5 : World :=
  { cwd := []
    root := Entry.dir true
      [("t", Entry.dir true
        [("bad", Entry.dir false []),
         ("zz.txt", Entry.file true [104])])]
    pathMatch := fun _ _ => false
    matchLines := fun _ _ => false
    decodeLines := fun _ => []
    glob := fun s => if s = "t" then some [["t"]] else some [] }

/-- C5 configuration. -/
def cfgC5 : Config :=
  { noRecursive := false, noGitignore := true, ignoreFiles := []
    excludeGlobs := [], noBinaryCheck := true }

/-- C5 counterexample: `t/bad` cannot be listed and is not excluded by any
rule; the walk callback returns the listing error (processor.go line 112),
which aborts `filepath.WalkDir` for the whole input `t`.  The warning is
printed, but `t/zz.txt` — an includable file of the same tree, visited
after `bad` in walk order — is missing from the result, refuting "skips
that directory only, and continues the traversal of the rest of that
input's tree". -/
theorem spec_c5_counterexample :
    shouldInclude wC5 cfgC5 ["t", "zz.txt"] = true
    ∧ shouldSkipDir wC5 cfgC5 ["t", "bad"] = false
    ∧ Event.warnWalk ["t"] ["t", "bad"] ∈ (processPathsT wC5 cfgC5 ["t"]).2
    ∧ (["t", "zz.txt"] : FPath) ∉ resolve wC5 cfgC5 ["t"]
    ∧ resolve wC5 cfgC5 ["t"] = [] :=
  ⟨rfl, rfl, by decide, by decide, rfl⟩

/-- C5 (amended): when the walk of an input aborts at an unreadable
directory, a warning naming that input and the failing directory is
emitted on the diagnostic stream; the files collected for that input
before the abort are kept, every expanded candidate's contribution still
reaches the result (other inputs are unaffected), and the resolver itself
still returns normally — but the remainder of the aborted input's tree is
not traversed. -/
theorem spec_c5_walk_warning (w : World) (cfg : Config)
    (patterns : List String) (cand : FPath) (r : Bool)
    (children : List (String × Entry)) (errPath : FPath)
    (hc : cand ∈ expandedPaths w patterns)
    (hstat : lookup w.root (w.cwd ++ cand) = some (Entry.dir r children))
    (herr : (walkEntryT w cfg cand cand (Entry.dir r children)).2.2
        = some errPath) :
    Event.warnWalk (w.cwd ++ cand) (w.cwd ++ errPath)
      ∈ (processPathsT w cfg patterns).2
    ∧ (∀ f ∈ (walkEntryT w cfg cand cand (Entry.dir r children)).1,
        f ∈ resolve w cfg patterns)
    ∧ (∀ c2 ∈ expandedPaths w patterns,
        ∀ f ∈ (candContribT w cfg c2).1, f ∈ resolve w cfg patterns) := by
  refine ⟨?_, ?_, ?_⟩
  · refine contrib_events_mem hc ?_
    simp [candContribT, hstat, herr]
  · intro f hf
    rw [mem_resolve, mem_processPaths]
    exact ⟨cand, hc, by simp [candContribT, hstat, hf]⟩
  · intro c2 hc2 f hf
    rw [mem_resolve, mem_processPaths]
    exact ⟨c2, hc2, hf⟩

/-- C5 witness: in the counterexample world the walk of `t` aborts at
`t/bad` and the warning for it is in the run's diagnostics. -/
theorem spec_c5_walk_warning_witness :
    (["t"] : FPath) ∈ expandedPaths wC5 ["t"]
    ∧ (walkEntryT wC5 cfgC5 ["t"] ["t"]
        (Entry.dir true
          [("bad", Entry.dir false []),
           ("zz.txt", Entry.file true [104])])).2.2 = some ["t", "bad"]
    ∧ Event.warnWalk ([] ++ ["t"]) ([] ++ ["t", "bad"])
        ∈ (processPathsT wC5 cfgC5 ["t"]).2 :=
  ⟨by decide, rfl,
    (spec_c5_walk_warning wC5 cfgC5 ["t"] ["t"] true
      [("bad", Entry.dir false []), ("zz.txt", Entry.file true [104])]
      ["t", "bad"] (by decide) rfl rfl).1⟩

/-! C8: an unreadable individual file during a walk. -/

/-- C8 world: the tree `t` holds a single unreadable file whose content
even contains a zero byte. -/
def wC8 : World :=
  { cwd := []
    root := Entry.dir true
      [("t", Entry.dir true [("u.txt", Entry.file false [0])])]
    pathMatch := fun _ _ => false
    matchLines := fun _ _ => false
    decodeLines := fun _ => []
    glob := fun s => if s = "t" then some [["t"]] else some [] }

/-- C8 configuration: the binary check is enabled. -/
def cfgC8 : Config :=
  { noRecursive := false, noGitignore := true, ignoreFiles := []
    excludeGlobs := [], noBinaryCheck := false }

/-- C8 counterexample: the unreadable file `t/u.txt` is *not* skipped — the
failing `os.Open` makes `isBinary` report `false` (processor.go lines
256-259), so the file ends up in the resolver's result — and the whole run
emits no diagnostic at all, refuting "a diagnostic is logged, that file is
skipped". -/
theorem spec_c8_counterexample :
    lookup wC8.root ["t", "u.txt"] = some (Entry.file false [0])
    ∧ cfgC8.noBinaryCheck = false
    ∧ resolve wC8 cfgC8 ["t"] = [["t", "u.txt"]]
    ∧ (runTrace wC8 cfgC8 ["t"]).all (fun e => !e.isWarn) = true :=
  ⟨rfl, rfl, rfl, rfl⟩

/-- C8 (amended): a file that cannot be opened is treated as non-binary,
so the binary stage never excludes it and it is included whenever stages
1-3 pass; the filter emits no diagnostic for it, and the walk continues
past it (a file entry never aborts the walk).  The failure only surfaces
downstream, when the formatter reads the file (root.go lines 100-105). -/
theorem spec_c8_unreadable_not_skipped (w : World) (cfg : Config)
    (path : FPath) (bytes : List Nat)
    (hf : lookup w.root (w.cwd ++ path) = some (Entry.file false bytes)) :
    isBinary w path = false
    ∧ shouldInclude w cfg path = !shouldSkipDir w cfg path
    ∧ (∀ e ∈ (shouldIncludeT w cfg path).2, e.isWarn = false)
    ∧ (∀ root r2, (walkEntryT w cfg root path (Entry.file r2 bytes)).2.2
        = none) := by
  have hbin : isBinary w path = false := by
    simp [isBinary, isBinaryT, hf]
  refine ⟨hbin, ?_, shouldIncludeT_events_noWarn w cfg path, ?_⟩
  · rw [shouldInclude_eq, hbin]
    simp
  · intro root r2
    rw [walkEntryT_file]

/-- C8 witness: the unreadable zero-byte file of the counterexample world
is reported non-binary. -/
theorem spec_c8_unreadable_not_skipped_witness :
    lookup wC8.root ([] ++ ["t", "u.txt"]) = some (Entry.file false [0])
    ∧ isBinary wC8 ["t", "u.txt"] = false :=
  ⟨rfl, (spec_c8_unreadable_not_skipped wC8 cfgC8 ["t", "u.txt"] [0] rfl).1⟩
